import Mathlib

/-!
Verification development for the prompt-dialog utility.

The program's pure logic is embedded at the level of characters: a Rust
`&str` is modelled as a `List Char`.  All byte positions that the source
manipulates (`find`, `rfind('@')`, slice offsets) land on character
boundaries — every slice start in the source sits right after the ASCII
character `@` or at an offset returned by a substring search for a token
that starts with `@` — so for every UTF-8 input the byte-indexed Rust
code and this character-indexed model mark, keep and replace exactly the
same characters.  `Char.isAlphanum` coincides with Rust's
`u8::is_ascii_alphanumeric` on the first byte of any character, and
`Char.toLower` models `str::to_lowercase` (ASCII case folding; every
placeholder comparison in the claims is over ASCII).  Effectful
operations (HTTP validation, canonicalization, the process table, the
clipboard) are modelled as explicit oracle parameters, and the HTTP
calls of the prompt client additionally leave an explicit trace of the
requests that were issued.
-/

namespace PromptDialog

variable {ε : Type}

/-! ## Generic list helpers (substring search, replacement, splitting) -/

/-- Index of the first occurrence of `pat` in `s` (Rust `str::find`). -/
def listFind (pat : List Char) : List Char → Option Nat
  | [] => if pat.isEmpty then some 0 else none
  | c :: rest =>
    if pat.isPrefixOf (c :: rest) then some 0
    else (listFind pat rest).map (fun n => n + 1)

/-- Whether `pat` occurs in `s` (Rust `str::contains`). -/
def containsSub (pat s : List Char) : Bool := (listFind pat s).isSome

/-- Fuel-driven worker for `replaceAll`; the fuel is an upper bound on the
number of steps, each of which consumes at least one character, so
`s.length` fuel computes the full left-to-right scan of Rust
`str::replace` for any non-empty pattern. -/
def replaceAllAux (pat rep : List Char) : Nat → List Char → List Char
  | 0, s => s
  | _ + 1, [] => []
  | fuel + 1, c :: rest =>
    if pat ≠ [] ∧ pat.isPrefixOf (c :: rest) then
      rep ++ replaceAllAux pat rep fuel ((c :: rest).drop pat.length)
    else c :: replaceAllAux pat rep fuel rest

/-- Replace every non-overlapping occurrence of `pat` in `s` by `rep`,
scanning left to right (Rust `str::replace`; the program only ever calls
it with the non-empty patterns `"@clipboard"` and `"@" + key`). -/
def replaceAll (pat rep s : List Char) : List Char := replaceAllAux pat rep s.length s

/-- Worker for `splitWs`, accumulating the current word reversed. -/
def splitWsAux : List Char → List Char → List (List Char)
  | [], cur => if cur = [] then [] else [cur.reverse]
  | c :: rest, cur =>
    if c.isWhitespace then
      if cur = [] then splitWsAux rest [] else cur.reverse :: splitWsAux rest []
    else splitWsAux rest (c :: cur)

/-- Split on runs of whitespace, dropping empty tokens
(Rust `str::split_whitespace`). -/
def splitWs (s : List Char) : List (List Char) := splitWsAux s []

/-- Rust `str::strip_prefix`: the remainder of `s` after `pre`, when
`pre` is a prefix of `s`. -/
def dropPre (pre s : List Char) : Option (List Char) :=
  if pre.isPrefixOf s then some (s.drop pre.length) else none

/-! ## Port extractor (src/server/discovery.rs, `extract_port_from_cmdline`) -/

/-- The numeric value of a non-empty all-digit string. -/
def digitsVal (ds : List Char) : Option Nat :=
  if ds = [] then none
  else if ds.all Char.isDigit then
    some (ds.foldl (fun a c => a * 10 + (c.toNat - 48)) 0)
  else none

/-- Rust `str::parse::<u16>`: optional leading plus sign, at least one
digit, value at most 65535. -/
def parseU16 (s : List Char) : Option Nat :=
  match (match s with
         | '+' :: rest => digitsVal rest
         | _ => digitsVal s) with
  | some v => if v ≤ 65535 then some v else none
  | none => none

/-- The token `--port`. -/
def portFlag : List Char := "--port".toList

/-- The token prefix `--port=`. -/
def portFlagEq : List Char := "--port=".toList

/-- The port contributed by the `i`-th whitespace token of the command
line, if any: the body of the `for (i, part)` loop of
`extract_port_from_cmdline` for one index. -/
def tokenPortValue (parts : List (List Char)) (i : Nat) : Option Nat :=
  match parts.get? i with
  | none => none
  | some part =>
    if part == portFlag then (parts.get? (i + 1)).bind parseU16
    else
      match dropPre portFlagEq part with
      | some s2 => parseU16 s2
      | none => none

/-- The indexed `for` loop of `extract_port_from_cmdline`: `rem` is the
suffix of `parts` starting at index `i`; the first token that yields a
parsable port returns it immediately. -/
def extractScan (parts : List (List Char)) : Nat → List (List Char) → Option Nat
  | _, [] => none
  | i, part :: rest =>
    if part == portFlag then
      match (parts.get? (i + 1)).bind parseU16 with
      | some p => some p
      | none => extractScan parts (i + 1) rest
    else
      match dropPre portFlagEq part with
      | some s2 =>
        match parseU16 s2 with
        | some p => some p
        | none => extractScan parts (i + 1) rest
      | none => extractScan parts (i + 1) rest

/-- Model of `extract_port_from_cmdline`: split the command line on whitespace and
scan for the first `--port <p>` or `--port=<p>` that parses as a u16. -/
def extract_port_from_cmdline (cmdline : List Char) : Option Nat :=
  extractScan (splitWs cmdline) 0 (splitWs cmdline)

/-! ## Discovery (src/server/discovery.rs) -/

/-- A discovered OpenCode server; `cwd` is an absolute path modelled as
its list of components, so Rust `Path::starts_with` becomes
`List.isPrefixOf`. -/
structure Server where
  pid : Nat
  port : Nat
  cwd : List String
deriving DecidableEq

/-- The effectful surroundings of `discover_server`: the process-table
snapshot (`find_opencode_processes`), the HTTP validator
(`validate_server`, failing with an opaque error of type `ε`) and
filesystem canonicalization (`Path::canonicalize`, `none` when it
fails). -/
structure Env (ε : Type) where
  processes : List (Nat × List Char)
  validate : Nat → Except ε Server
  canon : List String → Option (List String)

/-- Errors of `discover_server`, mirroring the distinct `anyhow` messages
of the source. -/
inductive DiscoveryError (ε : Type) where
  | portContext : Nat → ε → DiscoveryError ε
  | noProcesses : DiscoveryError ε
  | validation : ε → DiscoveryError ε
  | noMatching : List String → DiscoveryError ε
deriving DecidableEq

/-- The directory comparison of the scan loop: canonicalize both paths
(falling back to the path as given on failure) and test the prefix
relation in both directions. -/
def dirMatch (env : Env ε) (cwd : List String) (server : Server) : Bool :=
  let serverCwd := (env.canon server.cwd).getD server.cwd
  let ourCwd := (env.canon cwd).getD cwd
  serverCwd.isPrefixOf ourCwd || ourCwd.isPrefixOf serverCwd

/-- The candidate loop of `discover_server`: extract each candidate's
port (skipping candidates without one), validate it (recording the error
and continuing on failure), and return the first validated server whose
directory matches, with its `pid` filled in. -/
def discoverLoop (env : Env ε) (cwd : List String) :
    List (Nat × List Char) → Option ε → Except (DiscoveryError ε) Server
  | [], none => Except.error (DiscoveryError.noMatching cwd)
  | [], some e => Except.error (DiscoveryError.validation e)
  | c :: rest, lastErr =>
    match extract_port_from_cmdline c.2 with
    | none => discoverLoop env cwd rest lastErr
    | some p =>
      match env.validate p with
      | Except.error e => discoverLoop env cwd rest (some e)
      | Except.ok s0 =>
        let server := Server.mk c.1 s0.port s0.cwd
        if dirMatch env cwd server then Except.ok server
        else discoverLoop env cwd rest lastErr

/-- Model of `discover_server`: an explicit port is validated directly (wrapping
its failure); otherwise the process list is scanned. -/
def discover_server (env : Env ε) (cwd : List String) (port : Option Nat) :
    Except (DiscoveryError ε) Server :=
  match port with
  | some p =>
    match env.validate p with
    | Except.ok s => Except.ok s
    | Except.error e => Except.error (DiscoveryError.portContext p e)
  | none =>
    if env.processes = [] then Except.error DiscoveryError.noProcesses
    else discoverLoop env cwd env.processes none

/-- The validation errors recorded while scanning `procs`, in scan order:
one entry per candidate whose port extracts but whose validation fails. -/
def recordedErrors (env : Env ε) (procs : List (Nat × List Char)) : List ε :=
  procs.filterMap fun c =>
    match extract_port_from_cmdline c.2 with
    | none => none
    | some p =>
      match env.validate p with
      | Except.error e => some e
      | Except.ok _ => none

/-- The last of `errs`, or `acc` when `errs` is empty (the final value of
the `last_error` variable whose value was `acc` before `errs` were
recorded). -/
def lastErrOr (acc : Option ε) : List ε → Option ε
  | [] => acc
  | e :: rest => lastErrOr (some e) rest

/-- What one candidate contributes to the scan: `some` of the resolved
server (pid filled in) exactly when its port extracts, validates, and
the directory matches. -/
def candidateResult (env : Env ε) (cwd : List String) (c : Nat × List Char) : Option Server :=
  match extract_port_from_cmdline c.2 with
  | none => none
  | some p =>
    match env.validate p with
    | Except.error _ => none
    | Except.ok s0 =>
      let server := Server.mk c.1 s0.port s0.cwd
      if dirMatch env cwd server then some server else none

/-! ## Prompt client (src/server/client.rs) -/

/-- The JSON body of a `POST /tui/publish` call. -/
structure TuiPublishRequest where
  event_type : String
  properties : List (String × String)
deriving DecidableEq

/-- Errors of `send_prompt`, keeping apart which of the two steps
failed (the `context` strings of the source). -/
inductive SendError (ε : Type) where
  | appendFailed : ε → SendError ε
  | submitFailed : ε → SendError ε
deriving DecidableEq

/-- The request issued by `tui_append_prompt`. -/
def appendRequest (text : String) : TuiPublishRequest :=
  TuiPublishRequest.mk "tui.prompt.append" [("text", text)]

/-- The request issued by `tui_execute_command "prompt.submit"`. -/
def submitRequest : TuiPublishRequest :=
  TuiPublishRequest.mk "tui.command.execute" [("command", "prompt.submit")]

/-- Model of `send_prompt`: append then submit, sequentially, against an HTTP
world oracle; the second component is the trace of requests actually
issued, in order. -/
def send_prompt (world : TuiPublishRequest → Except ε Unit) (text : String) :
    Except (SendError ε) Unit × List TuiPublishRequest :=
  match world (appendRequest text) with
  | Except.error e => (Except.error (SendError.appendFailed e), [appendRequest text])
  | Except.ok _ =>
    match world submitRequest with
    | Except.error e =>
      (Except.error (SendError.submitFailed e), [appendRequest text, submitRequest])
    | Except.ok _ => (Except.ok (), [appendRequest text, submitRequest])

/-! ## Placeholder text engine (src/main.rs) -/

/-- Model of `expand_builtins`: when the text mentions `@clipboard`, read the
clipboard once (`clip` is the snapshot `read_clipboard` would return;
`none` when unavailable or empty, replaced by the empty string) and
substitute every occurrence. -/
def expand_builtins (clip : Option (List Char)) (text : List Char) : List Char :=
  if containsSub ("@clipboard".toList) text then
    replaceAll ("@clipboard".toList) (clip.getD []) text
  else text

/-- Stable insertion of a key/value pair into a list sorted by descending
key length (the `sort_by_key(Reverse(len))` order: a stable sort, so
ties keep their original relative order). -/
def insertPair (x : List Char × List Char) :
    List (List Char × List Char) → List (List Char × List Char)
  | [] => [x]
  | y :: ys => if y.1.length ≤ x.1.length then x :: y :: ys else y :: insertPair x ys

/-- Stable sort of the parameter pairs by descending key length,
modelling `keys.sort_by_key(|k| Reverse(k.len()))`; the input list order
stands for the hash-map iteration order the source sorts. -/
def sortByLenDesc (l : List (List Char × List Char)) : List (List Char × List Char) :=
  l.foldr insertPair []

/-- The user-parameter pass of `expand_placeholders`: for each key in
descending length order, replace every `@key` by its value (keys are
unique, so folding the pairs equals the source's sorted-key loop with
its `params.get(key)` lookup). -/
def paramsFold (params : List (List Char × List Char)) (r : List Char) : List Char :=
  (sortByLenDesc params).foldl (fun acc kv => replaceAll ('@' :: kv.1) kv.2 acc) r

/-- Model of `expand_placeholders`: built-ins first, then the user parameters over
the already-rewritten text (skipped entirely when there are none). -/
def expand_placeholders (text : List Char) (params : List (List Char × List Char))
    (clip : Option (List Char)) : List Char :=
  if params = [] then expand_builtins clip text
  else paramsFold params (expand_builtins clip text)

/-- Fuel-driven worker for `occs`; each step consumes at least one fuel
and advances the search start past the found `@`, so for the non-empty
tokens the program uses, `text.length + 1` fuel runs the source's
`while let` loop to completion. -/
def occsAux (text token : List Char) : Nat → Nat → List Nat
  | 0, _ => []
  | fuel + 1, sf =>
    match listFind token (text.drop sf) with
    | none => []
    | some pos => (sf + pos) :: occsAux text token fuel (sf + pos + 1)

/-- All start positions the `while let Some(pos) = text[search_from..].find(&token)`
loop of `build_highlight_text` visits, in order (the search resumes at
the position one past each found occurrence). -/
def occs (text token : List Char) : List Nat := occsAux text token (text.length + 1) 0

/-- Set `mask[i] := true` for `a ≤ i < b`
(`mask.iter_mut().take(b).skip(a)`). -/
def setRange (mask : List Bool) (a b : Nat) : List Bool :=
  mask.enum.map fun ib => if a ≤ ib.1 ∧ ib.1 < b then true else ib.2

/-- Mark one found occurrence of `token` at `pos`, but only when the
character following it is a word boundary (absent, or neither
ASCII-alphanumeric nor an underscore). -/
def markToken (text token : List Char) (mask : List Bool) (pos : Nat) : List Bool :=
  if (match text.get? (pos + token.length) with
      | none => true
      | some c => !c.isAlphanum && !(c == '_')) then
    setRange mask pos (pos + token.length)
  else mask

/-- The boolean mask of `build_highlight_text`: positions covered by a
recognized `@name` occurrence, for any placeholder name. -/
def highlightMask (text : List Char) (ps : List (List Char)) : List Bool :=
  ps.foldl (fun mask name => (occs text ('@' :: name)).foldl (markToken text ('@' :: name)) mask)
    (List.replicate text.length false)

/-- Model of `build_highlight_text`: keep the characters of recognized tokens,
keep newlines, and replace every other character by a space; the mask
access is guarded by a bounds check as in the source. -/
def build_highlight_text (text : List Char) (ps : List (List Char)) : List Char :=
  let mask := highlightMask text ps
  text.enum.map fun ic =>
    if ic.1 < mask.length ∧ mask.getD ic.1 false then ic.2
    else if ic.2 = '\n' then '\n' else ' '

/-- Index of the last `@` in the text (Rust `str::rfind('@')`). -/
def rfindAt : List Char → Option Nat
  | [] => none
  | c :: rest =>
    match rfindAt rest with
    | some i => some (i + 1)
    | none => if c = '@' then some 0 else none

/-- Model of `find_autocomplete`: look at the segment after the last `@`; closed
tokens (containing a space or newline) and segments that literally equal
a stored name after lower-casing the segment yield no suggestion;
otherwise the first placeholder whose lower-cased form starts with the
lower-cased segment is suggested (the first placeholder outright when
the segment is empty). -/
def find_autocomplete (text : List Char) (ps : List (List Char)) : List Char × Bool :=
  match rfindAt text with
  | none => ([], false)
  | some at_pos =>
    if (text.drop (at_pos + 1)).contains ' ' || (text.drop (at_pos + 1)).contains '\n' then
      ([], false)
    else if ps.any (fun p => p == (text.drop (at_pos + 1)).map Char.toLower) then ([], false)
    else if (text.drop (at_pos + 1)).map Char.toLower = [] then
      match ps with
      | [] => ([], false)
      | first :: _ => ('@' :: first, true)
    else
      match ps.filter (fun p =>
          ((text.drop (at_pos + 1)).map Char.toLower).isPrefixOf (p.map Char.toLower)) with
      | [] => ([], false)
      | best :: _ => ('@' :: best, true)

/-- Model of `apply_autocomplete`: re-derive the candidate (an empty segment
matches the whole list; unlike `find_autocomplete` there is no
exact-match short-circuit) and, when one exists, replace everything from
the last `@` by the completed token plus one trailing space. -/
def apply_autocomplete (text : List Char) (ps : List (List Char)) : List Char :=
  match rfindAt text with
  | none => text
  | some at_pos =>
    if (text.drop (at_pos + 1)).contains ' ' || (text.drop (at_pos + 1)).contains '\n' then
      text
    else
      match (if (text.drop (at_pos + 1)).map Char.toLower = [] then ps
             else ps.filter (fun p =>
               ((text.drop (at_pos + 1)).map Char.toLower).isPrefixOf (p.map Char.toLower))) with
      | [] => text
      | best :: _ => text.take at_pos ++ '@' :: (best ++ [' '])

/-! ## Supporting lemmas -/

theorem rfindAt_spec :
    ∀ (text : List Char) (i : Nat), rfindAt text = some i →
      i < text.length ∧ text.get? i = some '@' := by
  intro text
  induction text with
  | nil => intro i h; simp [rfindAt] at h
  | cons c rest ih =>
    intro i h
    simp only [rfindAt] at h
    cases hr : rfindAt rest with
    | some j =>
      rw [hr] at h
      obtain ⟨hj, hg⟩ := ih j hr
      cases h
      exact ⟨by simpa using Nat.succ_lt_succ hj, by simpa using hg⟩
    | none =>
      rw [hr] at h
      by_cases hc : c = '@'
      · rw [if_pos hc] at h
        cases h
        exact ⟨Nat.succ_pos _, by simp [hc]⟩
      · rw [if_neg hc] at h
        cases h

theorem isPrefixOf_length_le :
    ∀ (p l : List Char), p.isPrefixOf l = true → p.length ≤ l.length := by
  intro p
  induction p with
  | nil => intro l h; simp
  | cons a as ih =>
    intro l h
    cases l with
    | nil => simp [List.isPrefixOf] at h
    | cons b bs =>
      simp only [List.isPrefixOf, Bool.and_eq_true] at h
      simpa using ih bs h.2

theorem listFind_bound :
    ∀ (l : List Char) (pat : List Char) (p : Nat), pat ≠ [] → listFind pat l = some p →
      p + pat.length ≤ l.length := by
  intro l
  induction l with
  | nil =>
    intro pat p hpat h
    simp only [listFind] at h
    rw [if_neg (by simpa [List.isEmpty_iff] using hpat)] at h
    cases h
  | cons c rest ih =>
    intro pat p hpat h
    simp only [listFind] at h
    by_cases hpre : pat.isPrefixOf (c :: rest) = true
    · rw [if_pos hpre] at h
      cases h
      simpa using isPrefixOf_length_le pat (c :: rest) hpre
    · rw [if_neg hpre] at h
      cases hq : listFind pat rest with
      | none => rw [hq] at h; cases h
      | some q =>
        rw [hq] at h
        cases h
        have := ih pat q hpat hq
        simp only [List.length_cons]
        omega

theorem occsAux_bound :
    ∀ (fuel : Nat) (text token : List Char) (sf p : Nat), token ≠ [] →
      p ∈ occsAux text token fuel sf → p + token.length ≤ text.length := by
  intro fuel
  induction fuel with
  | zero => intro text token sf p htok h; simp [occsAux] at h
  | succ n ih =>
    intro text token sf p htok h
    simp only [occsAux] at h
    cases hf : listFind token (text.drop sf) with
    | none => rw [hf] at h; simp at h
    | some pos =>
      rw [hf] at h
      have hb := listFind_bound (text.drop sf) token pos htok hf
      rw [List.length_drop] at hb
      have htl : 0 < token.length := List.length_pos.mpr htok
      rcases List.mem_cons.mp h with h1 | h2
      · subst h1; omega
      · exact ih text token (sf + pos + 1) p htok h2

theorem setRange_length (mask : List Bool) (a b : Nat) :
    (setRange mask a b).length = mask.length := by
  simp [setRange, List.enum_length]

theorem markToken_length (text token : List Char) (mask : List Bool) (pos : Nat) :
    (markToken text token mask pos).length = mask.length := by
  unfold markToken
  split
  · exact setRange_length mask pos (pos + token.length)
  · rfl

theorem foldl_length_preserved {α : Type} (f : List Bool → α → List Bool)
    (hf : ∀ m a, (f m a).length = m.length) :
    ∀ (l : List α) (m : List Bool), (l.foldl f m).length = m.length := by
  intro l
  induction l with
  | nil => intro m; rfl
  | cons a rest ih => intro m; rw [List.foldl_cons, ih (f m a), hf]

theorem highlightMask_length (text : List Char) (ps : List (List Char)) :
    (highlightMask text ps).length = text.length := by
  unfold highlightMask
  rw [foldl_length_preserved _ ?_ ps (List.replicate text.length false),
    List.length_replicate]
  intro m name
  exact foldl_length_preserved _ (fun m2 pos => markToken_length text ('@' :: name) m2 pos)
    (occs text ('@' :: name)) m

/-! ## Claims -/

/-- Claim C1: for every input text and every list of placeholder names,
the string returned by `build_highlight_text` has exactly the same
length as the input text, so each output character aligns positionally
with the corresponding input character. -/
theorem c1_highlight_length (text : List Char) (ps : List (List Char)) :
    (build_highlight_text text ps).length = text.length := by
  simp [build_highlight_text, List.enum_length]

/-- Claim C10: the text-engine functions are total and every position
they slice or index at is within bounds: the last-`@` position returned
by `rfindAt` is a valid index holding the one-byte character `@` (so the
slice starting just after it lands on a character boundary), every
occurrence position visited by the highlight scan leaves the whole token
inside the text, and the highlight mask has exactly one entry per
character, so the bounds-checked mask accesses cover every index. -/
theorem c10_safety :
    (∀ (text : List Char) (i : Nat), rfindAt text = some i →
       i < text.length ∧ text.get? i = some '@') ∧
    (∀ (text token : List Char) (p : Nat), token ≠ [] → p ∈ occs text token →
       p + token.length ≤ text.length) ∧
    (∀ (text : List Char) (ps : List (List Char)),
       (highlightMask text ps).length = text.length) :=
  ⟨rfindAt_spec,
   fun text token p htok hmem => occsAux_bound (text.length + 1) text token 0 p htok hmem,
   highlightMask_length⟩

/-- Witness for C10 at concrete inputs. -/
theorem c10_witness :
    (1 < ("a@b".toList).length ∧ ("a@b".toList).get? 1 = some '@') ∧
    0 + ('@' :: "b".toList).length ≤ ("@b".toList).length :=
  ⟨c10_safety.1 ("a@b".toList) 1 (by decide),
   c10_safety.2.1 ("@b".toList) ('@' :: "b".toList) 0 (by decide) (by decide)⟩

/-- Counterexample to claim C2 as stated: on `"@path"` with placeholder
list `["path"]` the segment after the last `@` is the non-empty
`"path"`, `find_autocomplete` returns `(empty, false)`, yet
`apply_autocomplete` does not return the text unchanged — it completes
the token again and appends a trailing space. -/
theorem c2_counterexample :
    rfindAt ("@path".toList) = some 0 ∧
    ("@path".toList).drop 1 ≠ [] ∧
    find_autocomplete ("@path".toList) ["path".toList] = ([], false) ∧
    apply_autocomplete ("@path".toList) ["path".toList] = ("@path ".toList) ∧
    ("@path ".toList) ≠ ("@path".toList) := by
  refine ⟨rfl, by decide, rfl, rfl, by decide⟩

/-- Claim C2, amended: for every text whose segment after the last `@`
is non-empty, whenever `find_autocomplete` returns a suggestion,
`apply_autocomplete` replaces everything from the last `@` to the end by
that suggestion followed by a single trailing space; and whenever
`find_autocomplete` returns `(empty, false)` *and* the lower-cased
segment does not literally equal a stored placeholder name,
`apply_autocomplete` returns the text unchanged.  (When the lower-cased
segment does equal a stored name, `find_autocomplete` suppresses the
suggestion but `apply_autocomplete` — which lacks the exact-match
short-circuit — still rewrites the token, as the counterexample
shows.) -/
theorem c2_amended (text : List Char) (ps : List (List Char)) (at_pos : Nat)
    (hat : rfindAt text = some at_pos) (hne : text.drop (at_pos + 1) ≠ []) :
    (∀ s, find_autocomplete text ps = (s, true) →
        apply_autocomplete text ps = text.take at_pos ++ s ++ [' ']) ∧
    (find_autocomplete text ps = ([], false) →
        (text.drop (at_pos + 1)).map Char.toLower ∉ ps →
        apply_autocomplete text ps = text) := by
  have hmapne : (text.drop (at_pos + 1)).map Char.toLower ≠ [] := by simpa using hne
  by_cases hsp : ((text.drop (at_pos + 1)).contains ' '
      || (text.drop (at_pos + 1)).contains '\n') = true
  · have eqS : find_autocomplete text ps = ([], false) := by
      unfold find_autocomplete
      rw [hat]
      simp only []
      rw [if_pos hsp]
    have eqA : apply_autocomplete text ps = text := by
      unfold apply_autocomplete
      rw [hat]
      simp only []
      rw [if_pos hsp]
    constructor
    · intro s h
      rw [eqS] at h
      simp at h
    · intro h1 h2
      exact eqA
  · by_cases hany : (ps.any (fun p => p == (text.drop (at_pos + 1)).map Char.toLower)) = true
    · have hmem : (text.drop (at_pos + 1)).map Char.toLower ∈ ps := by
        obtain ⟨x, hx, hbeq⟩ := List.any_eq_true.mp hany
        rw [beq_iff_eq] at hbeq
        exact hbeq ▸ hx
      have eqS : find_autocomplete text ps = ([], false) := by
        unfold find_autocomplete
        rw [hat]
        simp only []
        rw [if_neg hsp, if_pos hany]
      constructor
      · intro s h
        rw [eqS] at h
        simp at h
      · intro h1 h2
        exact absurd hmem h2
    · cases hfil : ps.filter (fun p =>
          ((text.drop (at_pos + 1)).map Char.toLower).isPrefixOf (p.map Char.toLower)) with
      | nil =>
        have eqS : find_autocomplete text ps = ([], false) := by
          unfold find_autocomplete
          rw [hat]
          simp only []
          rw [if_neg hsp, if_neg hany, if_neg hmapne, hfil]
        have eqA : apply_autocomplete text ps = text := by
          unfold apply_autocomplete
          rw [hat]
          simp only []
          rw [if_neg hsp, if_neg hmapne, hfil]
        constructor
        · intro s h
          rw [eqS] at h
          simp at h
        · intro h1 h2
          exact eqA
      | cons best restf =>
        have eqS : find_autocomplete text ps = ('@' :: best, true) := by
          unfold find_autocomplete
          rw [hat]
          simp only []
          rw [if_neg hsp, if_neg hany, if_neg hmapne, hfil]
        have eqA : apply_autocomplete text ps = text.take at_pos ++ '@' :: (best ++ [' ']) := by
          unfold apply_autocomplete
          rw [hat]
          simp only []
          rw [if_neg hsp, if_neg hmapne, hfil]
        constructor
        · intro s h
          rw [eqS] at h
          have hs : '@' :: best = s := congrArg Prod.fst h
          rw [eqA, ← hs]
          simp
        · intro h1 h2
          rw [eqS] at h1
          simp at h1

/-- Witness for the amended C2 at a concrete input: suggesting
`@clipboard` for `"x @cl"` and accepting it rewrites the trailing token
and appends a space. -/
theorem c2_witness :
    apply_autocomplete ("x @cl".toList) ["clipboard".toList, "path".toList] =
      ("x @cl".toList).take 2 ++ ('@' :: "clipboard".toList) ++ [' '] :=
  (c2_amended ("x @cl".toList) ["clipboard".toList, "path".toList] 2 (by decide)
    (by decide)).1 ('@' :: "clipboard".toList) (by decide)

/-- Counterexample to claim C4 as stated: with the stored placeholder
name `"Path"` (upper-case `P`) and text `"x @Path"`, the lower-cased
segment `"path"` equals the stored name up to case, yet
`find_autocomplete` does not treat the token as completed — it returns
the suggestion `@Path` with `visible = true` instead of
`(empty, false)`. -/
theorem c4_counterexample :
    find_autocomplete ("x @Path".toList) ["Path".toList] = ('@' :: "Path".toList, true) ∧
    ('@' :: "Path".toList, true) ≠ (([] : List Char), false) := by
  refine ⟨rfl, by decide⟩

/-- Claim C4, amended: the completed-token check lower-cases only the
typed segment and compares it literally (case-sensitively) against the
stored names: if the lower-cased segment after the last `@` (with no
space or newline in it) is itself a member of the placeholder list —
which requires that stored name to be entirely lower-case —
`find_autocomplete` returns `(empty, false)`.  A stored name containing
upper-case characters is never matched by this check (prefix matching,
by contrast, lower-cases both sides). -/
theorem c4_amended (text : List Char) (ps : List (List Char)) (at_pos : Nat)
    (hat : rfindAt text = some at_pos)
    (hsp : ((text.drop (at_pos + 1)).contains ' '
      || (text.drop (at_pos + 1)).contains '\n') = false)
    (hmem : (text.drop (at_pos + 1)).map Char.toLower ∈ ps) :
    find_autocomplete text ps = ([], false) := by
  have hany : (ps.any (fun p => p == (text.drop (at_pos + 1)).map Char.toLower)) = true :=
    List.any_eq_true.mpr ⟨_, hmem, by simp⟩
  unfold find_autocomplete
  rw [hat]
  simp only []
  rw [if_neg (by rw [hsp]; exact Bool.false_ne_true), if_pos hany]

/-- Witness for the amended C4 at a concrete input: the all-lower-case
stored name `"path"`, typed as `"a @PATH"`, is recognized as already
completed. -/
theorem c4_witness :
    find_autocomplete ("a @PATH".toList) ["path".toList] = ([], false) :=
  c4_amended ("a @PATH".toList) ["path".toList] 2 (by decide) (by decide) (by decide)

theorem drop_cons_get {α : Type} :
    ∀ (l : List α) (i : Nat) (a : α) (rest : List α),
      l.drop i = a :: rest → l.get? i = some a ∧ l.drop (i + 1) = rest := by
  intro l
  induction l with
  | nil => intro i a rest h; simp at h
  | cons x xs ih =>
    intro i a rest h
    cases i with
    | zero =>
      rw [List.drop_zero] at h
      cases h
      exact ⟨rfl, List.drop_one _⟩
    | succ n =>
      rw [List.drop_succ_cons] at h
      obtain ⟨h1, h2⟩ := ih n a rest h
      exact ⟨by simpa using h1, by simpa using h2⟩

theorem extractScan_skip (parts : List (List Char)) (i : Nat) (part : List Char)
    (rest : List (List Char)) (hget : parts.get? i = some part)
    (hnone : tokenPortValue parts i = none) :
    extractScan parts i (part :: rest) = extractScan parts (i + 1) rest := by
  unfold tokenPortValue at hnone
  rw [hget] at hnone
  simp only [] at hnone
  conv_lhs => unfold extractScan
  by_cases hpf : (part == portFlag) = true
  · rw [if_pos hpf] at hnone ⊢
    rw [hnone]
  · rw [if_neg hpf] at hnone ⊢
    cases hdp : dropPre portFlagEq part with
    | none => rfl
    | some s2 =>
      rw [hdp] at hnone
      simp only [] at hnone
      simp only []
      rw [hnone]

theorem extractScan_hit (parts : List (List Char)) (i : Nat) (part : List Char)
    (rest : List (List Char)) (p : Nat) (hget : parts.get? i = some part)
    (hsome : tokenPortValue parts i = some p) :
    extractScan parts i (part :: rest) = some p := by
  unfold tokenPortValue at hsome
  rw [hget] at hsome
  simp only [] at hsome
  conv_lhs => unfold extractScan
  by_cases hpf : (part == portFlag) = true
  · rw [if_pos hpf] at hsome ⊢
    rw [hsome]
  · rw [if_neg hpf] at hsome ⊢
    cases hdp : dropPre portFlagEq part with
    | none =>
      rw [hdp] at hsome
      simp only [] at hsome
      cases hsome
    | some s2 =>
      rw [hdp] at hsome
      simp only [] at hsome
      simp only []
      rw [hsome]

theorem tokenPortValue_length (parts : List (List Char)) (m : Nat) (p : Nat)
    (h : tokenPortValue parts m = some p) : m < parts.length := by
  unfold tokenPortValue at h
  cases hg : parts.get? m with
  | none => rw [hg] at h; cases h
  | some part => exact (List.get?_eq_some.mp hg).1

theorem extractScan_first (parts : List (List Char)) :
    ∀ (rem : List (List Char)) (i m p : Nat), parts.drop i = rem → i ≤ m →
      (∀ j, i ≤ j → j < m → tokenPortValue parts j = none) →
      tokenPortValue parts m = some p →
      extractScan parts i rem = some p := by
  intro rem
  induction rem with
  | nil =>
    intro i m p hdrop him hall hm
    have h1 : parts.length ≤ i := List.drop_eq_nil_iff.mp hdrop
    have h2 : m < parts.length := tokenPortValue_length parts m p hm
    omega
  | cons part rest ih =>
    intro i m p hdrop him hall hm
    obtain ⟨hget, hdrop2⟩ := drop_cons_get parts i part rest hdrop
    by_cases heq : i = m
    · subst heq
      exact extractScan_hit parts i part rest p hget hm
    · have hlt : i < m := lt_of_le_of_ne him heq
      rw [extractScan_skip parts i part rest hget (hall i le_rfl hlt)]
      exact ih (i + 1) m p hdrop2 hlt (fun j hj1 hj2 => hall j (by omega) hj2) hm

theorem extractScan_none (parts : List (List Char)) :
    ∀ (rem : List (List Char)) (i : Nat), parts.drop i = rem →
      (∀ j, i ≤ j → tokenPortValue parts j = none) →
      extractScan parts i rem = none := by
  intro rem
  induction rem with
  | nil => intro i hdrop hall; rfl
  | cons part rest ih =>
    intro i hdrop hall
    obtain ⟨hget, hdrop2⟩ := drop_cons_get parts i part rest hdrop
    rw [extractScan_skip parts i part rest hget (hall i le_rfl)]
    exact ih (i + 1) hdrop2 (fun j hj => hall j (by omega))

/-- Counterexample to claim C3 as stated: in
`"opencode --port abc --port 8080"` the first matching token (`--port`
at index 1) has the unparsable value `"abc"` and contributes nothing,
yet `extract_port_from_cmdline` does not return `none` — it keeps
scanning and returns the later valid port 8080. -/
theorem c3_counterexample :
    (splitWs ("opencode --port abc --port 8080".toList)).get? 1 = some ("--port".toList) ∧
    tokenPortValue (splitWs ("opencode --port abc --port 8080".toList)) 1 = none ∧
    extract_port_from_cmdline ("opencode --port abc --port 8080".toList) = some 8080 ∧
    (some 8080 : Option Nat) ≠ none := by
  refine ⟨rfl, rfl, rfl, by decide⟩

/-- Claim C3, amended: `extract_port_from_cmdline` is decided by the
first `--port`/`--port=<value>` token whose value is present and parses
as an unsigned 16-bit integer; a matching token whose value is missing
or unparsable is skipped and scanning continues (so a later valid
`--port` token does yield its port), and the function returns nothing
exactly when no token contributes a valid port. -/
theorem c3_amended (cmdline : List Char) :
    (∀ i p, (∀ j, j < i → tokenPortValue (splitWs cmdline) j = none) →
        tokenPortValue (splitWs cmdline) i = some p →
        extract_port_from_cmdline cmdline = some p) ∧
    ((∀ i, tokenPortValue (splitWs cmdline) i = none) →
        extract_port_from_cmdline cmdline = none) := by
  constructor
  · intro i p hall hi
    exact extractScan_first (splitWs cmdline) (splitWs cmdline) 0 i p (List.drop_zero _)
      (Nat.zero_le i) (fun j hj1 hj2 => hall j hj2) hi
  · intro hall
    exact extractScan_none (splitWs cmdline) (splitWs cmdline) 0 (List.drop_zero _)
      (fun j hj => hall j)

/-- Witness for the amended C3 at a concrete input: the first token with
a valid port decides the result. -/
theorem c3_witness :
    extract_port_from_cmdline ("a --port=9 b".toList) = some 9 :=
  (c3_amended ("a --port=9 b".toList)).1 1 9
    (by
      intro j hj
      have hj0 : j = 0 := by omega
      subst hj0
      decide)
    (by decide)

theorem discoverLoop_error_eq (env : Env ε) (cwd : List String) :
    ∀ (procs : List (Nat × List Char)) (acc : Option ε) (err : DiscoveryError ε),
      discoverLoop env cwd procs acc = Except.error err →
      err = (match lastErrOr acc (recordedErrors env procs) with
             | some e => DiscoveryError.validation e
             | none => DiscoveryError.noMatching cwd) := by
  intro procs
  induction procs with
  | nil =>
    intro acc err h
    cases acc with
    | none =>
      simp only [discoverLoop, Except.error.injEq] at h
      simp only [recordedErrors, List.filterMap_nil, lastErrOr]
      exact h.symm
    | some e =>
      simp only [discoverLoop, Except.error.injEq] at h
      simp only [recordedErrors, List.filterMap_nil, lastErrOr]
      exact h.symm
  | cons c rest ih =>
    intro acc err h
    conv_lhs at h => unfold discoverLoop
    simp only [recordedErrors, List.filterMap_cons]
    cases hext : extract_port_from_cmdline c.2 with
    | none =>
      rw [hext] at h
      simp only [] at h
      simp only []
      exact ih acc err h
    | some p =>
      rw [hext] at h
      simp only [] at h
      simp only []
      cases hval : env.validate p with
      | error e =>
        rw [hval] at h
        simp only [] at h
        simp only [lastErrOr]
        exact ih (some e) err h
      | ok s0 =>
        rw [hval] at h
        simp only [] at h
        simp only []
        by_cases hdm : dirMatch env cwd (Server.mk c.1 s0.port s0.cwd) = true
        · rw [if_pos hdm] at h
          cases h
        · rw [if_neg hdm] at h
          exact ih acc err h

/-- Concrete environment for the C5 counterexample: one process whose
port extracts and validates fine, but whose working directory does not
match. -/
def env5c : Env Bool :=
  Env.mk [(7, "opencode --port 80".toList)]
    (fun _ => Except.ok (Server.mk 0 80 ["b"])) (fun _ => none)

/-- Counterexample to claim C5 as stated: the single candidate's port is
extracted and validated successfully (it merely fails the directory
match, so no validation error is recorded), and discovery nevertheless
fails with the generic no-matching-server error — refuting that the
generic error occurs only when every candidate's port could not be
extracted or validated. -/
theorem c5_counterexample :
    extract_port_from_cmdline ("opencode --port 80".toList) = some 80 ∧
    env5c.validate 80 = Except.ok (Server.mk 0 80 ["b"]) ∧
    discover_server env5c ["a"] none = Except.error (DiscoveryError.noMatching ["a"]) :=
  ⟨rfl, rfl, rfl⟩

/-- Claim C5, amended: when scanning was performed (no explicit port,
non-empty candidate list) and discovery fails, it fails with the last
recorded validation error when at least one candidate recorded one, and
with the generic no-matching-server error exactly when no validation
error was recorded — which also covers candidates whose port extracted
and validated successfully but whose directory did not match. -/
theorem c5_amended (env : Env ε) (cwd : List String) (err : DiscoveryError ε)
    (hne : env.processes ≠ []) (h : discover_server env cwd none = Except.error err) :
    err = (match lastErrOr none (recordedErrors env env.processes) with
           | some e => DiscoveryError.validation e
           | none => DiscoveryError.noMatching cwd) := by
  unfold discover_server at h
  rw [if_neg hne] at h
  exact discoverLoop_error_eq env cwd env.processes none err h

/-- Concrete environment for the C5 witness: the single candidate's
validation fails, so its error is the recorded one discovery reports. -/
def env5w : Env Bool :=
  Env.mk [(1, "opencode --port 80".toList)]
    (fun _ => Except.error true) (fun _ => none)

/-- Witness for the amended C5 at a concrete input. -/
theorem c5_witness :
    (DiscoveryError.validation true : DiscoveryError Bool) =
      (match lastErrOr none (recordedErrors env5w env5w.processes) with
       | some e => DiscoveryError.validation e
       | none => DiscoveryError.noMatching ["a"]) :=
  c5_amended env5w ["a"] (DiscoveryError.validation true) (by decide) rfl

theorem discoverLoop_ok_iff (env : Env ε) (cwd : List String) (s : Server) :
    ∀ (procs : List (Nat × List Char)) (acc : Option ε),
      discoverLoop env cwd procs acc = Except.ok s ↔
        List.findSome? (candidateResult env cwd) procs = some s := by
  intro procs
  induction procs with
  | nil =>
    intro acc
    cases acc with
    | none => simp [discoverLoop, List.findSome?]
    | some e => simp [discoverLoop, List.findSome?]
  | cons c rest ih =>
    intro acc
    conv_lhs => unfold discoverLoop
    rw [List.findSome?_cons]
    unfold candidateResult
    cases hext : extract_port_from_cmdline c.2 with
    | none =>
      simp only []
      exact ih acc
    | some p =>
      simp only []
      cases hval : env.validate p with
      | error e =>
        simp only []
        exact ih (some e)
      | ok s0 =>
        simp only []
        by_cases hdm : dirMatch env cwd (Server.mk c.1 s0.port s0.cwd) = true
        · rw [if_pos hdm, if_pos hdm]
          simp
        · rw [if_neg hdm, if_neg hdm]
          exact ih acc

/-- Claim C6: for every candidate list in scan order, discovery (without
an explicit port) succeeds with `s` exactly when the first candidate
whose port extracts and validates and whose canonicalized working
directory is prefix-related to the canonicalized current directory in
either direction yields `s` — with the returned handle's `pid` set to
that candidate's process id; candidates with unextractable ports are
skipped, and validation failures do not abort the scan (both contribute
`none` to `candidateResult` and the scan moves on). -/
theorem c6_first_match (env : Env ε) (cwd : List String) (s : Server) :
    discover_server env cwd none = Except.ok s ↔
      List.findSome? (candidateResult env cwd) env.processes = some s := by
  unfold discover_server
  by_cases hp : env.processes = []
  · rw [if_pos hp, hp]
    simp [List.findSome?]
  · rw [if_neg hp]
    exact discoverLoop_ok_iff env cwd s env.processes none

/-- Claim C7: `send_prompt` performs the append call and the submit call
strictly in sequence: if the append step fails, its error is returned
and the submit request is never issued (the trace contains only the
append request); if the append step succeeds and the submit step fails,
the submit step's error is returned while the trace shows the append
request was already issued — the partial effect is surfaced, not
concealed. -/
theorem c7_two_step (world : TuiPublishRequest → Except ε Unit) (text : String) :
    (∀ e, world (appendRequest text) = Except.error e →
        send_prompt world text =
          (Except.error (SendError.appendFailed e), [appendRequest text])) ∧
    (∀ e, world (appendRequest text) = Except.ok () → world submitRequest = Except.error e →
        send_prompt world text =
          (Except.error (SendError.submitFailed e), [appendRequest text, submitRequest])) := by
  constructor
  · intro e h
    unfold send_prompt
    rw [h]
  · intro e h1 h2
    unfold send_prompt
    rw [h1]
    simp only []
    rw [h2]

/-- Concrete HTTP world for the C7 witness: the append request fails. -/
def world7 : TuiPublishRequest → Except Bool Unit :=
  fun r => if r = appendRequest "hi" then Except.error true else Except.ok ()

/-- Witness for C7 at a concrete input: a failing append step aborts the
sequence with only the append request issued. -/
theorem c7_witness :
    send_prompt world7 "hi" =
      (Except.error (SendError.appendFailed true), [appendRequest "hi"]) :=
  (c7_two_step world7 "hi").1 true rfl

theorem mem_insertPair {x y : List Char × List Char} :
    ∀ {l : List (List Char × List Char)}, y ∈ insertPair x l → y = x ∨ y ∈ l := by
  intro l
  induction l with
  | nil =>
    intro h
    simp only [insertPair] at h
    rcases List.mem_singleton.mp h with h1
    exact Or.inl h1
  | cons z zs ih =>
    intro h
    simp only [insertPair] at h
    by_cases hc : z.1.length ≤ x.1.length
    · rw [if_pos hc] at h
      rcases List.mem_cons.mp h with h1 | h2
      · exact Or.inl h1
      · exact Or.inr h2
    · rw [if_neg hc] at h
      rcases List.mem_cons.mp h with h1 | h2
      · exact Or.inr (h1 ▸ List.mem_cons_self z zs)
      · rcases ih h2 with h3 | h4
        · exact Or.inl h3
        · exact Or.inr (List.mem_cons_of_mem z h4)

theorem pairwise_insertPair {x : List Char × List Char} :
    ∀ {l : List (List Char × List Char)},
      List.Pairwise (fun a b => b.1.length ≤ a.1.length) l →
      List.Pairwise (fun a b => b.1.length ≤ a.1.length) (insertPair x l) := by
  intro l
  induction l with
  | nil =>
    intro _
    simp [insertPair]
  | cons y ys ih =>
    intro hp
    rw [List.pairwise_cons] at hp
    obtain ⟨hy, hys⟩ := hp
    simp only [insertPair]
    by_cases hc : y.1.length ≤ x.1.length
    · rw [if_pos hc]
      rw [List.pairwise_cons]
      refine ⟨?_, List.pairwise_cons.mpr ⟨hy, hys⟩⟩
      intro z hz
      rcases List.mem_cons.mp hz with h1 | h2
      · exact h1 ▸ hc
      · exact le_trans (hy z h2) hc
    · rw [if_neg hc]
      rw [List.pairwise_cons]
      refine ⟨?_, ih hys⟩
      intro z hz
      rcases mem_insertPair hz with h1 | h2
      · exact h1 ▸ le_of_not_le hc
      · exact hy z h2

theorem sortByLenDesc_sorted (l : List (List Char × List Char)) :
    List.Pairwise (fun a b => b.1.length ≤ a.1.length) (sortByLenDesc l) := by
  induction l with
  | nil => exact List.Pairwise.nil
  | cons x xs ih =>
    rw [sortByLenDesc, List.foldr_cons]
    exact pairwise_insertPair ih

/-- Claim C8: `expand_placeholders` processes user parameter keys
longest-name first — the sorted key order is descending in key length,
so a key that is a proper prefix of another key never shadows the longer
key's token — and on the spec's example (`path` mapped to `"short"`,
`pathname` mapped to `"long"`, in either hash-iteration order) the text
`"@pathname and @path"` expands to `"long and short"`. -/
theorem c8_longest_first :
    (∀ params : List (List Char × List Char),
        List.Pairwise (fun a b => b.1.length ≤ a.1.length) (sortByLenDesc params)) ∧
    expand_placeholders ("@pathname and @path".toList)
        [("path".toList, "short".toList), ("pathname".toList, "long".toList)] none =
      ("long and short".toList) ∧
    expand_placeholders ("@pathname and @path".toList)
        [("pathname".toList, "long".toList), ("path".toList, "short".toList)] none =
      ("long and short".toList) :=
  ⟨sortByLenDesc_sorted, rfl, rfl⟩

theorem expand_builtins_clip (v : List Char) :
    expand_builtins (some v) ("@clipboard".toList) = v := by
  have h : expand_builtins (some v) ("@clipboard".toList) = v ++ [] := rfl
  rw [h, List.append_nil]

/-- Claim C9: `expand_placeholders` applies its replacements sequentially
over one string: the clipboard snapshot is substituted first and the
user-parameter passes then operate on the already-rewritten text — on
the input `"@clipboard"` the parameter fold runs on the substituted
clipboard value itself, a `@key` token introduced by the clipboard
content is replaced by that key's pass, and a token contained in an
earlier (longer) key's substituted value is replaced by a later key's
pass. -/
theorem c9_sequential_passes :
    (∀ (params : List (List Char × List Char)) (v : List Char),
        expand_placeholders ("@clipboard".toList) params (some v) =
          (if params = [] then v else paramsFold params v)) ∧
    expand_placeholders ("@clipboard".toList) [("file".toList, "main.rs".toList)]
        (some ("say @file".toList)) = ("say main.rs".toList) ∧
    expand_placeholders ("@pathname".toList)
        [("path".toList, "X".toList), ("pathname".toList, "@path end".toList)] none =
      ("X end".toList) := by
  refine ⟨?_, rfl, rfl⟩
  intro params v
  unfold expand_placeholders
  rw [expand_builtins_clip]

end PromptDialog
